import Mathlib

/-
Verification of the commit-classification / changelog / version-derivation
engine of the `bumper` release CLI.

The TypeScript sources under `src/` are shallowly embedded below:
  * `changelogGenerator.ts`: `parseCommitMessage`, `parseCommitLine`,
    `getSectionKey`, `sortCommitsByDate`, `categorizeCommits`,
    `generateBreakingChangesSection`, `generateSectionContent`,
    `generateContributorsSection`, `generateChangelogContent`,
    `determineReleaseType`, `getNextVersion`;
  * `commitFormatter.ts`: `suggestCommitType`, `suggestScope`,
    `cleanMessage`, `formatCommitMessage`;
  * `legacySupport.ts`: `determineMigrationStrategy`.

JavaScript runtime primitives are modelled explicitly:
  * `String.prototype.split` with a string separator is `String.splitOn`
    (identical semantics, including the `[""]` result on `""`);
  * `split(/\s+/)` is `splitWhitespaceJS` (maximal whitespace runs,
    keeping empty fragments at both ends);
  * `Number(...)` is `jsNumberVal`, the full `StringNumericLiteral`
    grammar (signed decimal with optional fraction and exponent,
    `0x`/`0o`/`0b` integer literals, `Infinity`, else NaN) kept as the
    exact value `m · 10^e`; binary64 rounding is not modelled, so
    arithmetic and printing (`JSNumber.render`) agree with the runtime
    precisely on values exactly representable as doubles — all integers
    of magnitude below 2^53 and short dyadic fractions such as 0.5 —
    which covers every input the theorems below touch;
  * `toLowerCase`/`toUpperCase` act per ASCII character;
  * `new Date(s).getTime()` is `dateKey`, a monotone encoding of the
    `YYYY-MM-DD` short-date strings produced by `git log --date=short`
    (other strings, NaN at runtime, are totalised to 0);
  * `Array.prototype.sort`, required stable and comparator-consistent by
    ES2019, is modelled by a stable insertion sort;
  * the insertion-ordered `Map` is modelled by an association list.
-/

namespace Bumper

/-- A classified commit, the `Commit` interface of `changelogGenerator.ts`.
The optional `breaking?: boolean` field is modelled as a `Bool` because
every use site (`commit.breaking` in filters and `some`) only tests its
truthiness, under which `undefined` and `false` coincide. -/
structure Commit where
  hash : String
  type : String
  scope : Option String := none
  subject : String
  breaking : Bool := false
  author : String
  date : String
  deriving Repr, DecidableEq

/-- The `ChangelogSection` interface of `changelogGenerator.ts`. -/
structure ChangelogSection where
  title : String
  commits : List Commit
  deriving Repr, DecidableEq

/-- The three release types of `changelogGenerator.ts`. -/
inductive ReleaseType where
  | major
  | minor
  | patch
  deriving Repr, DecidableEq

/-- `type.toUpperCase()` for the three release-type literals. -/
def ReleaseType.upper : ReleaseType → String
  | .major => "MAJOR"
  | .minor => "MINOR"
  | .patch => "PATCH"

/-- The `ReleaseInfo` interface of `changelogGenerator.ts`. -/
structure ReleaseInfo where
  version : String
  date : String
  type : ReleaseType
  sections : List ChangelogSection
  deriving Repr, DecidableEq

/-- `determineReleaseType` of `changelogGenerator.ts` (lines 279-286). -/
def determineReleaseType (commits : List Commit) : ReleaseType :=
  let hasBreakingChanges := commits.any (fun commit => commit.breaking)
  let hasFeatures := commits.any (fun commit => commit.type == "feat")
  if hasBreakingChanges then .major
  else if hasFeatures then .minor
  else .patch

/-- Splitting a char list at every character satisfying `p`, keeping
empty fragments (so `[] ↦ [[]]`), as `String.prototype.split` does with
a one-character separator. -/
def splitCharsBy (p : Char → Bool) : List Char → List (List Char)
  | [] => [[]]
  | c :: rest =>
    match splitCharsBy p rest with
    | [] => [[]]
    | h :: t => if p c then [] :: h :: t else (c :: h) :: t

/-- `currentVersion.split('.')`. -/
def jsSplitDot (s : String) : List String :=
  (splitCharsBy (fun c => c = '.') s.data).map (fun l => String.mk l)

/-- `commitLine.split('|')`. -/
def jsSplitPipe (s : String) : List String :=
  (splitCharsBy (fun c => c = '|') s.data).map (fun l => String.mk l)

/-- Model of `message.split(/\s+/)`: splits on maximal runs of
whitespace.  As in JavaScript, a leading (resp. trailing) whitespace run
contributes an empty first (resp. last) fragment, and `""` yields
`[""]`.  Computed from the split-at-every-whitespace-character list by
dropping the empty interior fragments. -/
def splitWhitespaceJS (s : String) : List String :=
  match splitCharsBy (fun c => c.isWhitespace) s.data with
  | [] => [""]
  | [f] => [String.mk f]
  | f :: rest =>
    (String.mk f :: (rest.dropLast.filter (fun l => !l.isEmpty)).map String.mk)
      ++ [String.mk (rest.getLastD [])]

/-- `String.prototype.toLowerCase`, per ASCII character. -/
def toLowerCaseJS (s : String) : String :=
  String.mk (s.data.map Char.toLower)

/-- `String.prototype.trim`: strips leading and trailing whitespace
(modelled as ASCII whitespace). -/
def jsTrim (s : String) : String :=
  String.mk (((s.data.dropWhile fun c => c.isWhitespace).reverse.dropWhile
    fun c => c.isWhitespace).reverse)

/-- The value of a decimal-digit char list, as `Number` computes it. -/
def digitsVal (cs : List Char) : Nat :=
  cs.foldl (fun n c => n * 10 + (c.toNat - 48)) 0

/-- The value of a JavaScript number in the model: NaN, a signed
infinity, or the exact value `m · 10^e`.  The runtime rounds this value
to binary64; the model keeps it exact, which agrees with the runtime
precisely on values exactly representable as doubles — every integer of
magnitude below 2^53 and short dyadic fractions such as `5e-1` = 0.5 —
the region all theorems below confine themselves to. -/
inductive JSNumber where
  | nan
  | inf (neg : Bool)
  | val (m : Int) (e : Int)
  deriving Repr, DecidableEq

/-- The `(e|E) [+|-] digits` exponent part of a decimal literal: `[]`
means exponent 0; anything else must be a complete exponent. -/
def parseExpPart : List Char → Option Int
  | [] => some 0
  | c :: r =>
    if c = 'e' || c = 'E' then
      match r with
      | '+' :: r2 =>
        if !r2.isEmpty && r2.all Char.isDigit then some (digitsVal r2) else none
      | '-' :: r2 =>
        if !r2.isEmpty && r2.all Char.isDigit then some (-(digitsVal r2 : Int))
        else none
      | r2 =>
        if !r2.isEmpty && r2.all Char.isDigit then some (digitsVal r2) else none
    else none

/-- `StrUnsignedDecimalLiteral` without the `Infinity` production:
`digits [. digits] [exp]` or `. digits [exp]`, returned as the exact
pair (mantissa, decimal exponent). -/
def parseDecimal (cs : List Char) : Option (Int × Int) :=
  let ip := cs.takeWhile Char.isDigit
  let r1 := cs.dropWhile Char.isDigit
  match r1 with
  | '.' :: r2 =>
    let fp := r2.takeWhile Char.isDigit
    let r3 := r2.dropWhile Char.isDigit
    if ip.isEmpty && fp.isEmpty then none
    else
      (parseExpPart r3).map
        (fun ex => ((digitsVal (ip ++ fp) : Int), ex - fp.length))
  | _ =>
    if ip.isEmpty then none
    else (parseExpPart r1).map (fun ex => ((digitsVal ip : Int), ex))

def isHexDigitJS (c : Char) : Bool :=
  c.isDigit || ('a' ≤ c && c ≤ 'f') || ('A' ≤ c && c ≤ 'F')

def hexDigitVal (c : Char) : Nat :=
  if c.isDigit then c.toNat - 48
  else if 'a' ≤ c && c ≤ 'f' then c.toNat - 87
  else c.toNat - 55

def digitsValBase (base : Nat) (cs : List Char) : Nat :=
  cs.foldl (fun n c => n * base + hexDigitVal c) 0

/-- `Infinity` or an unsigned decimal literal, with the sign already
stripped. -/
def jsUnsignedDecimal (neg : Bool) (u : List Char) : JSNumber :=
  if u = "Infinity".data then .inf neg
  else
    match parseDecimal u with
    | some (m, e) => .val (if neg then -m else m) e
    | none => .nan

/-- `StrDecimalLiteral`: `[+|-]? (Infinity | unsigned decimal)`. -/
def jsSignedDecimal (t : List Char) : JSNumber :=
  match t with
  | '+' :: u => jsUnsignedDecimal false u
  | '-' :: u => jsUnsignedDecimal true u
  | u => jsUnsignedDecimal false u

/-- Model of the JavaScript `Number(string)` conversion
(`StringNumericLiteral`): whitespace-trimmed; the empty string is 0; a
signed decimal literal with optional fraction and exponent, an unsigned
`0x`/`0o`/`0b` integer literal, or `Infinity`; everything else is NaN.
The exact value is kept — see `JSNumber`. -/
def jsNumberVal (s : String) : JSNumber :=
  let t := (jsTrim s).data
  if t.isEmpty then .val 0 0
  else
    match t with
    | '0' :: c :: rest =>
      if c = 'x' || c = 'X' then
        if !rest.isEmpty && rest.all isHexDigitJS then
          .val (digitsValBase 16 rest) 0
        else .nan
      else if c = 'o' || c = 'O' then
        if !rest.isEmpty && rest.all (fun d => '0' ≤ d && d ≤ '7') then
          .val (digitsValBase 8 rest) 0
        else .nan
      else if c = 'b' || c = 'B' then
        if !rest.isEmpty && rest.all (fun d => d = '0' || d = '1') then
          .val (digitsValBase 2 rest) 0
        else .nan
      else jsSignedDecimal t
    | _ => jsSignedDecimal t

/-- `x || 0` on a number `x`: NaN and ±0 are falsy and default to (+)0;
every other value passes through. -/
def jsOrZeroOf : JSNumber → JSNumber
  | .nan => .val 0 0
  | .inf b => .inf b
  | .val m e => if m = 0 then .val 0 0 else .val m e

/-- `versionParts[i] || 0` after `currentVersion.split('.').map(Number)`:
a missing index is `undefined`, which is falsy like NaN and ±0. -/
def jsOrZero (parts : List String) (i : Nat) : JSNumber :=
  match parts.get? i with
  | none => .val 0 0
  | some s => jsOrZeroOf (jsNumberVal s)

/-- `+ 1` on the exact number model (`NaN + 1 = NaN` and
`±Infinity + 1 = ±Infinity`). -/
def JSNumber.add1 : JSNumber → JSNumber
  | .nan => .nan
  | .inf b => .inf b
  | .val m e =>
    if 0 ≤ e then .val (m * 10 ^ e.toNat + 1) 0
    else .val (m + 10 ^ (-e).toNat) e

/-- Strip up to `k` factors of 10 from `m`, returning the reduced
mantissa and the number of remaining fractional digits. -/
def stripZeros : Int → Nat → Int × Nat
  | m, 0 => (m, 0)
  | m, k + 1 => if m % 10 = 0 then stripZeros (m / 10) k else (m, k + 1)

/-- Model of JavaScript number-to-string (the `${x}` template literal)
on the exact fragment: integers print in plain decimal — exact and
exponent-free below 2^53 < 1e21 — and non-integers print their
terminating decimal expansion, which for short dyadic values such as
1.5 coincides with the runtime's shortest round-trip form.  Values the
runtime would round or print in exponent notation lie outside the
modelled fragment and appear in no theorem. -/
def renderDecimal (m2 : Int) (k : Nat) : String :=
  if k = 0 then toString m2
  else
    let a := m2.natAbs / 10 ^ k
    let b := m2.natAbs % 10 ^ k
    let bs := toString b
    (if m2 < 0 then "-" else "") ++ toString a ++ "." ++
      String.mk (List.replicate (k - bs.length) '0') ++ bs

def JSNumber.render : JSNumber → String
  | .nan => "NaN"
  | .inf true => "-Infinity"
  | .inf false => "Infinity"
  | .val m e =>
    if 0 ≤ e then toString (m * 10 ^ e.toNat)
    else
      renderDecimal (stripZeros m (-e).toNat).1 (stripZeros m (-e).toNat).2

/-- `getNextVersion` of `changelogGenerator.ts` (lines 289-303); the
template interpolation `${x}` is `JSNumber.render` and `x + 1` is
`JSNumber.add1`. -/
def getNextVersion (currentVersion : String) (releaseType : ReleaseType) : String :=
  let versionParts := jsSplitDot currentVersion
  let major := jsOrZero versionParts 0
  let minor := jsOrZero versionParts 1
  let patch := jsOrZero versionParts 2
  match releaseType with
  | .major => major.add1.render ++ ".0.0"
  | .minor => major.render ++ "." ++ minor.add1.render ++ ".0"
  | .patch => major.render ++ "." ++ minor.render ++ "." ++ patch.add1.render

/-- The migration-analysis counters consumed by
`determineMigrationStrategy` in `legacySupport.ts`. -/
structure MigrationAnalysis where
  totalCommits : Nat
  conventionalCommits : Nat
  legacyCommits : Nat
  deriving Repr, DecidableEq

/-- `determineMigrationStrategy` of `legacySupport.ts` (lines 148-152).
The float comparison `conventionalCommits > legacyCommits * 0.3` is
modelled exactly as `10 * c > 3 * l`: the double nearest to 0.3 is below
it by 0.2·2⁻⁵⁴ relative scale, so `l * 0.3` rounds to the exact value
`3l/10` whenever that is an integer and stays within half an ulp of a
non-integer otherwise, making the float and rational comparisons agree
for every pair of counts below 2^50. -/
def determineMigrationStrategy (analysis : MigrationAnalysis) : String :=
  if analysis.legacyCommits < 50 then "bulk"
  else if 10 * analysis.conventionalCommits > 3 * analysis.legacyCommits then "hybrid"
  else "gradual"

theorem determineReleaseType_eq_ite (m : List Commit) :
    determineReleaseType m =
      if ∃ c ∈ m, c.breaking = true then ReleaseType.major
      else if ∃ c ∈ m, c.type = "feat" then ReleaseType.minor
      else ReleaseType.patch := by
  unfold determineReleaseType
  simp [List.any_eq_true]

/-- C1: `determineReleaseType` is major exactly when some commit is
breaking, else minor exactly when some commit has type `feat`, else
patch, and the result is invariant under every permutation of the input
list. -/
theorem c1_determineReleaseType (l l' : List Commit) (h : l.Perm l') :
    determineReleaseType l = determineReleaseType l' ∧
    (determineReleaseType l = ReleaseType.major ↔ ∃ c ∈ l, c.breaking = true) ∧
    ((¬ ∃ c ∈ l, c.breaking = true) →
      ((determineReleaseType l = ReleaseType.minor) ↔ ∃ c ∈ l, c.type = "feat")) ∧
    ((¬ ∃ c ∈ l, c.breaking = true) → (¬ ∃ c ∈ l, c.type = "feat") →
      determineReleaseType l = ReleaseType.patch) := by
  refine ⟨?_, ?_, ?_, ?_⟩
  · rw [determineReleaseType_eq_ite l, determineReleaseType_eq_ite l']
    have e1 : (∃ c ∈ l, c.breaking = true) ↔ (∃ c ∈ l', c.breaking = true) :=
      ⟨fun ⟨c, hc, hp⟩ => ⟨c, h.mem_iff.mp hc, hp⟩,
       fun ⟨c, hc, hp⟩ => ⟨c, h.mem_iff.mpr hc, hp⟩⟩
    have e2 : (∃ c ∈ l, c.type = "feat") ↔ (∃ c ∈ l', c.type = "feat") :=
      ⟨fun ⟨c, hc, hp⟩ => ⟨c, h.mem_iff.mp hc, hp⟩,
       fun ⟨c, hc, hp⟩ => ⟨c, h.mem_iff.mpr hc, hp⟩⟩
    simp only [e1, e2]
  · rw [determineReleaseType_eq_ite l]
    by_cases hb : ∃ c ∈ l, c.breaking = true
    · simp [hb]
    · by_cases hf : ∃ c ∈ l, c.type = "feat" <;> simp [hb, hf]
  · intro hno
    rw [determineReleaseType_eq_ite l]
    by_cases hf : ∃ c ∈ l, c.type = "feat" <;> simp [hno, hf]
  · intro hno hnf
    rw [determineReleaseType_eq_ite l]
    simp [hno, hnf]

/-- Demo commits used by the witnesses. -/
def demoFeat : Commit :=
  { hash := "aaaaaaaa", type := "feat", subject := "add search",
    author := "Ana", date := "2024-03-01" }

def demoFix : Commit :=
  { hash := "bbbbbbbb", type := "fix", subject := "fix crash",
    author := "Bo", date := "2024-02-01" }

def demoBreaking : Commit :=
  { hash := "cccccccc", type := "feat", subject := "change api",
    breaking := true, author := "Ana", date := "2024-01-01" }

theorem c1_determineReleaseType_witness :
    determineReleaseType [demoFeat, demoFix] = determineReleaseType [demoFix, demoFeat] ∧
    (determineReleaseType [demoFeat, demoFix] = ReleaseType.major ↔
      ∃ c ∈ [demoFeat, demoFix], c.breaking = true) :=
  ⟨(c1_determineReleaseType [demoFeat, demoFix] [demoFix, demoFeat]
      (List.Perm.swap demoFix demoFeat [])).1,
    (c1_determineReleaseType [demoFeat, demoFix] [demoFix, demoFeat]
      (List.Perm.swap demoFix demoFeat [])).2.1⟩

/-- The integer reading of a component value: the exact `Number` value
when that value is an integer, 0 otherwise. -/
def componentValInt (m e : Int) : Int :=
  if 0 ≤ e then m * 10 ^ e.toNat
  else if m % 10 ^ (-e).toNat = 0 then m / 10 ^ (-e).toNat else 0

def componentIntOf : JSNumber → Int
  | .val m e => componentValInt m e
  | _ => 0

/-- Claim-side: the version component at index `i` read as an integer —
the exact `Number` value when that value is an integer, and 0 when the
component is missing or NaN. -/
def componentInt (parts : List String) (i : Nat) : Int :=
  match parts.get? i with
  | none => 0
  | some s => componentIntOf (jsNumberVal s)

/-- The value lies in the integer fragment of `Number`: NaN (defaulted
to 0 by `|| 0`) or an exact integer of magnitude below 2^53, where
binary64 arithmetic and printing are exact and plain decimal. -/
def componentOkayOf : JSNumber → Bool
  | .nan => true
  | .inf _ => false
  | .val m e =>
    if 0 ≤ e then decide ((m * 10 ^ e.toNat).natAbs < 2 ^ 53)
    else
      decide (m % 10 ^ (-e).toNat = 0) &&
        decide ((m / 10 ^ (-e).toNat).natAbs < 2 ^ 53)

/-- The component string's `Number` value lies in the integer
fragment. -/
def componentOkay (p : String) : Bool :=
  componentOkayOf (jsNumberVal p)

/-- C2 counterexample: the claim parses components "as integers" with
non-numeric ones defaulting to 0 and promises a well-formed triplet for
every current-version string.  But `Number("5e-1")` is 0.5 at runtime,
so the patch bump of `"0.0.5e-1"` is `"0.0.1.5"` — four `.`-separated
components, not a triplet (the claim's reading predicts `"0.0.1"`) —
and `Number("1e1")` is 10, so the major bump of `"1e1.0.0"` is
`"11.0.0"` where the integer-parse-with-default-0 reading predicts
`"2.0.0"`. -/
theorem c2_counterexample :
    getNextVersion "0.0.5e-1" ReleaseType.patch = "0.0.1.5" ∧
    (jsSplitDot (getNextVersion "0.0.5e-1" ReleaseType.patch)).length = 4 ∧
    getNextVersion "1e1.0.0" ReleaseType.major = "11.0.0" := by
  refine ⟨?_, ?_, ?_⟩ <;> decide

theorem str_append_assoc (a b c : String) : (a ++ b) ++ c = a ++ (b ++ c) := by
  cases a with
  | mk la =>
    cases b with
    | mk lb =>
      cases c with
      | mk lc =>
        show String.mk ((la ++ lb) ++ lc) = String.mk (la ++ (lb ++ lc))
        rw [List.append_assoc]

theorem str_append_empty (a : String) : a ++ "" = a := by
  cases a with
  | mk la =>
    show String.mk (la ++ []) = String.mk la
    rw [List.append_nil]

theorem str_empty_append (a : String) : "" ++ a = a := by
  cases a with
  | mk la =>
    show String.mk ([] ++ la) = String.mk la
    rw [List.nil_append]

theorem stripZeros_of_dvd :
    ∀ (k : Nat) (m : Int), ((10 : Int) ^ k) ∣ m →
    stripZeros m k = (m / 10 ^ k, 0) := by
  intro k
  induction k with
  | zero =>
    intro m _
    simp [stripZeros]
  | succ k ih =>
    intro m hm
    obtain ⟨c, rfl⟩ := hm
    have h10 : ((10 : Int) ^ (k + 1) * c) % 10 = 0 := by
      rw [show (10 : Int) ^ (k + 1) * c = 10 * (10 ^ k * c) by ring]
      exact Int.mul_emod_right 10 _
    have hdiv : (10 : Int) ^ (k + 1) * c / 10 = 10 ^ k * c := by
      rw [show (10 : Int) ^ (k + 1) * c = 10 * (10 ^ k * c) by ring]
      exact Int.mul_ediv_cancel_left _ (by norm_num)
    simp only [stripZeros, if_pos h10, hdiv, ih (10 ^ k * c) ⟨c, rfl⟩]
    congr 1
    rw [Int.mul_ediv_cancel_left c (pow_ne_zero _ (by norm_num)),
      Int.mul_ediv_cancel_left c (pow_ne_zero _ (by norm_num))]

theorem componentValInt_zero (e : Int) : componentValInt 0 e = 0 := by
  unfold componentValInt
  by_cases he : (0 : Int) ≤ e <;> simp [he]

theorem jsOrZero_spec (parts : List String)
    (h : ∀ p ∈ parts, componentOkay p = true) (i : Nat) :
    (jsOrZero parts i).render = toString (componentInt parts i) ∧
    (jsOrZero parts i).add1.render = toString (componentInt parts i + 1) := by
  have hz : (JSNumber.val 0 0).render = toString (0 : Int) ∧
      (JSNumber.val 0 0).add1.render = toString ((0 : Int) + 1) := by
    constructor <;> decide
  unfold jsOrZero componentInt
  cases hg : parts.get? i with
  | none => exact hz
  | some s =>
    have hmem : s ∈ parts := List.get?_mem hg
    have hok := h s hmem
    unfold componentOkay at hok
    show (jsOrZeroOf (jsNumberVal s)).render =
        toString (componentIntOf (jsNumberVal s)) ∧
      (jsOrZeroOf (jsNumberVal s)).add1.render =
        toString (componentIntOf (jsNumberVal s) + 1)
    cases hv : jsNumberVal s with
    | nan => exact hz
    | inf b =>
      rw [hv] at hok
      replace hok : false = true := hok
      exact absurd hok (by decide)
    | val m e =>
      rw [hv] at hok
      replace hok : (if 0 ≤ e then decide ((m * 10 ^ e.toNat).natAbs < 2 ^ 53)
          else decide (m % 10 ^ (-e).toNat = 0) &&
            decide ((m / 10 ^ (-e).toNat).natAbs < 2 ^ 53)) = true := hok
      show (if m = 0 then JSNumber.val 0 0 else JSNumber.val m e).render =
          toString (componentValInt m e) ∧
        (if m = 0 then JSNumber.val 0 0 else JSNumber.val m e).add1.render =
          toString (componentValInt m e + 1)
      by_cases hm : m = 0
      · subst hm
        rw [if_pos rfl, componentValInt_zero]
        exact hz
      · rw [if_neg hm]
        by_cases he : (0 : Int) ≤ e
        · rw [if_pos he] at hok
          unfold componentValInt
          rw [if_pos he]
          constructor
          · show (if 0 ≤ e then toString (m * 10 ^ e.toNat)
                else renderDecimal (stripZeros m (-e).toNat).1
                  (stripZeros m (-e).toNat).2) = _
            rw [if_pos he]
          · have ha : (JSNumber.val m e).add1 =
                JSNumber.val (m * 10 ^ e.toNat + 1) 0 := by
              show (if 0 ≤ e then JSNumber.val (m * 10 ^ e.toNat + 1) 0
                  else JSNumber.val (m + 10 ^ (-e).toNat) e) = _
              rw [if_pos he]
            rw [ha]
            show (if (0 : Int) ≤ 0 then
                  toString ((m * 10 ^ e.toNat + 1) * 10 ^ ((0 : Int)).toNat)
                else renderDecimal
                  (stripZeros (m * 10 ^ e.toNat + 1) (-(0 : Int)).toNat).1
                  (stripZeros (m * 10 ^ e.toNat + 1) (-(0 : Int)).toNat).2) = _
            rw [if_pos (le_refl (0 : Int))]
            congr 1
            simp
        · rw [if_neg he, Bool.and_eq_true, decide_eq_true_eq,
            decide_eq_true_eq] at hok
          obtain ⟨hmod, _⟩ := hok
          have hdvd : ((10 : Int) ^ (-e).toNat) ∣ m :=
            Int.dvd_of_emod_eq_zero hmod
          unfold componentValInt
          rw [if_neg he, if_pos hmod]
          constructor
          · show (if 0 ≤ e then toString (m * 10 ^ e.toNat)
                else renderDecimal (stripZeros m (-e).toNat).1
                  (stripZeros m (-e).toNat).2) = _
            rw [if_neg he, stripZeros_of_dvd _ _ hdvd]
            rfl
          · have ha : (JSNumber.val m e).add1 =
                JSNumber.val (m + 10 ^ (-e).toNat) e := by
              show (if 0 ≤ e then JSNumber.val (m * 10 ^ e.toNat + 1) 0
                  else JSNumber.val (m + 10 ^ (-e).toNat) e) = _
              rw [if_neg he]
            rw [ha]
            have hdvd2 : ((10 : Int) ^ (-e).toNat) ∣ (m + 10 ^ (-e).toNat) :=
              hdvd.add dvd_rfl
            show (if 0 ≤ e then
                  toString ((m + 10 ^ (-e).toNat) * 10 ^ e.toNat)
                else renderDecimal
                  (stripZeros (m + 10 ^ (-e).toNat) (-e).toNat).1
                  (stripZeros (m + 10 ^ (-e).toNat) (-e).toNat).2) = _
            rw [if_neg he, stripZeros_of_dvd _ _ hdvd2]
            show toString ((m + 10 ^ (-e).toNat) / 10 ^ (-e).toNat) = _
            congr 1
            obtain ⟨c, rfl⟩ := hdvd
            rw [show (10 : Int) ^ (-e).toNat * c + 10 ^ (-e).toNat =
                10 ^ (-e).toNat * (c + 1) by ring,
              Int.mul_ediv_cancel_left _ (pow_ne_zero _ (by norm_num)),
              Int.mul_ediv_cancel_left _ (pow_ne_zero _ (by norm_num))]

/-- C2 (amended): the current version is split on `.` and each component
converted with JavaScript `Number`; provided every component's value is
NaN (defaulting to 0, missing components included) or an exact integer
of magnitude below 2^53, `getNextVersion` returns the well-formed
triplet `(X+1).0.0` / `X.(Y+1).0` / `X.Y.(Z+1)` over those integers;
in particular the four concrete transitions of the spec hold. -/
theorem c2_getNextVersion (cv : String)
    (h : ∀ p ∈ jsSplitDot cv, componentOkay p = true) :
    (getNextVersion cv ReleaseType.major =
        s!"{componentInt (jsSplitDot cv) 0 + 1}.0.0" ∧
      getNextVersion cv ReleaseType.minor =
        s!"{componentInt (jsSplitDot cv) 0}.{componentInt (jsSplitDot cv) 1 + 1}.0" ∧
      getNextVersion cv ReleaseType.patch =
        s!"{componentInt (jsSplitDot cv) 0}.{componentInt (jsSplitDot cv) 1}.{componentInt (jsSplitDot cv) 2 + 1}") ∧
    getNextVersion "1.0.0" ReleaseType.major = "2.0.0" ∧
    getNextVersion "2.1.3" ReleaseType.minor = "2.2.0" ∧
    getNextVersion "1.9.9" ReleaseType.patch = "1.9.10" ∧
    getNextVersion "0.0.0" ReleaseType.patch = "0.0.1" := by
  refine ⟨⟨?_, ?_, ?_⟩, ?_, ?_, ?_, ?_⟩
  · show (jsOrZero (jsSplitDot cv) 0).add1.render ++ ".0.0" = _
    rw [(jsOrZero_spec (jsSplitDot cv) h 0).2]
    show toString (componentInt (jsSplitDot cv) 0 + 1) ++ ".0.0" =
      ("" : String) ++ toString (componentInt (jsSplitDot cv) 0 + 1) ++ ".0.0"
    rw [str_empty_append]
  · show (jsOrZero (jsSplitDot cv) 0).render ++ "." ++
        (jsOrZero (jsSplitDot cv) 1).add1.render ++ ".0" = _
    rw [(jsOrZero_spec (jsSplitDot cv) h 0).1,
      (jsOrZero_spec (jsSplitDot cv) h 1).2]
    show toString (componentInt (jsSplitDot cv) 0) ++ "." ++
        toString (componentInt (jsSplitDot cv) 1 + 1) ++ ".0" =
      ("" : String) ++ toString (componentInt (jsSplitDot cv) 0) ++ "." ++
        toString (componentInt (jsSplitDot cv) 1 + 1) ++ ".0"
    rw [str_empty_append]
  · show (jsOrZero (jsSplitDot cv) 0).render ++ "." ++
        (jsOrZero (jsSplitDot cv) 1).render ++ "." ++
        (jsOrZero (jsSplitDot cv) 2).add1.render = _
    rw [(jsOrZero_spec (jsSplitDot cv) h 0).1,
      (jsOrZero_spec (jsSplitDot cv) h 1).1,
      (jsOrZero_spec (jsSplitDot cv) h 2).2]
    show toString (componentInt (jsSplitDot cv) 0) ++ "." ++
        toString (componentInt (jsSplitDot cv) 1) ++ "." ++
        toString (componentInt (jsSplitDot cv) 2 + 1) =
      ("" : String) ++ toString (componentInt (jsSplitDot cv) 0) ++ "." ++
        toString (componentInt (jsSplitDot cv) 1) ++ "." ++
        toString (componentInt (jsSplitDot cv) 2 + 1) ++ ""
    rw [str_empty_append, str_append_empty]
  · decide
  · decide
  · decide
  · decide

/-- The version string used by the C2 witness. -/
def demoVersion : String := "2.1.3"

theorem c2_getNextVersion_witness :
    getNextVersion "2.1.3" ReleaseType.minor = "2.2.0" :=
  (c2_getNextVersion demoVersion (by decide)).2.2.1

/-- C9: the migration strategy is `bulk` below 50 legacy commits, else
`hybrid` when conventional commits exceed 30% of legacy commits (exact
rational comparison), else `gradual`, in that priority order. -/
theorem c9_determineMigrationStrategy (analysis : MigrationAnalysis) :
    determineMigrationStrategy analysis =
      if analysis.legacyCommits < 50 then "bulk"
      else if ((analysis.conventionalCommits : ℚ) >
          (analysis.legacyCommits : ℚ) * (3 / 10)) then "hybrid"
      else "gradual" := by
  unfold determineMigrationStrategy
  by_cases h1 : analysis.legacyCommits < 50
  · simp [h1]
  · have hiff : (10 * analysis.conventionalCommits > 3 * analysis.legacyCommits) ↔
        ((analysis.conventionalCommits : ℚ) > (analysis.legacyCommits : ℚ) * (3 / 10)) := by
      rw [gt_iff_lt, gt_iff_lt, ← mul_div_assoc,
        div_lt_iff₀ (by norm_num : (0:ℚ) < 10), ← Nat.cast_lt (α := ℚ)]
      push_cast
      constructor <;> intro h <;> linarith
    by_cases h2 : 10 * analysis.conventionalCommits > 3 * analysis.legacyCommits
    · simp [h1, h2, hiff.mp h2]
    · have h2q := hiff.not.mp h2
      simp [h1, h2, h2q]

/-- JavaScript `\w`: ASCII letters, digits and underscore. -/
def isWordChar (c : Char) : Bool := c.isAlphanum || c = '_'

/-- Characters allowed in a scope, `[\w-]`. -/
def isScopeChar (c : Char) : Bool := isWordChar c || c = '-'

/-- The optional `(?:\(([\w-]+)\))?` scope group.  When the next
character is `(` but no `([\w-]+)` follows, the whole regex fails:
skipping the optional group would leave `(`, which can never match the
following `(!)?:`. -/
def parseScopePart : List Char → Option (Option String × List Char)
  | '(' :: r1 =>
    let scopeRun := r1.takeWhile isScopeChar
    let r2 := r1.dropWhile isScopeChar
    if scopeRun.isEmpty then none
    else
      match r2 with
      | ')' :: r3 => some (some (String.mk scopeRun), r3)
      | _ => none
  | r => some (none, r)

/-- The optional `(!)?` group. -/
def parseBang : List Char → Bool × List Char
  | '!' :: r => (true, r)
  | r => (false, r)

/-- The regex `/^(\w+)(?:\(([\w-]+)\))?(!)?:\s(.+)$/` of
`parseCommitMessage` in `changelogGenerator.ts` (line 49), as a
deterministic parser.  Maximal munch is exact here: shortening `(\w+)`
or `([\w-]+)` leaves a word character (never `(`, `!`, `:` or `)`) at a
position where the regex requires one of those delimiters, so no
backtracking alternative exists.  `\s` is one whitespace character, and
`(.+)$` requires a non-empty remainder free of line terminators
(modelled as `\n`/`\r`). -/
def parseConventional (message : String) :
    Option (String × Option String × Bool × String) :=
  let cs := message.data
  let typeRun := cs.takeWhile isWordChar
  let afterType := cs.dropWhile isWordChar
  if typeRun.isEmpty then none
  else
    match parseScopePart afterType with
    | none => none
    | some (scopeOpt, afterScope) =>
      match parseBang afterScope with
      | (isBreaking, afterBang) =>
        match afterBang with
        | ':' :: w :: r6 =>
          if w.isWhitespace && !r6.isEmpty &&
              r6.all (fun c => !(c = '\n' || c = '\r'))
          then some (String.mk typeRun, scopeOpt, isBreaking, String.mk r6)
          else none
        | _ => none

/-- The heuristic fallback classifier of `parseCommitMessage`
(`changelogGenerator.ts` lines 53-70): the first element of the
lowercased message split on `/\s+/`, matched against the keyword
table. -/
def inferLegacyType (message : String) : String :=
  let words := splitWhitespaceJS (toLowerCaseJS message)
  let firstWord := words.headD ""
  if ["add", "new", "create", "implement"].contains firstWord then "feat"
  else if ["fix", "bug", "issue", "problem"].contains firstWord then "fix"
  else if ["update", "upgrade", "bump"].contains firstWord then "chore"
  else if ["refactor", "clean", "improve"].contains firstWord then "refactor"
  else if ["test", "spec"].contains firstWord then "test"
  else if ["doc", "readme", "comment"].contains firstWord then "docs"
  else "chore"

/-- The `Partial<Commit>` result of `parseCommitMessage`: `breaking` is
`none` when the field is left `undefined` (fallback branch). -/
structure ParsedCommit where
  type : String
  scope : Option String := none
  breaking : Option Bool := none
  subject : String
  deriving Repr, DecidableEq

/-- `parseCommitMessage` of `changelogGenerator.ts` (lines 48-82).  The
`||` defaults of the source (`commitType || 'chore'`,
`commitScope || undefined`, `commitSubject || message`) are kept as
explicit emptiness tests. -/
def parseCommitMessage (message : String) : ParsedCommit :=
  match parseConventional message with
  | none => { type := inferLegacyType message, subject := message }
  | some (commitType, commitScope, isBreaking, commitSubject) =>
    { type := if commitType = "" then "chore" else commitType,
      scope :=
        match commitScope with
        | some sc => if sc = "" then none else some sc
        | none => none,
      breaking := some isBreaking,
      subject := if commitSubject = "" then message else commitSubject }

/-- `parseCommitLine` of `changelogGenerator.ts` (lines 85-103). -/
def parseCommitLine (commitLine : String) : Commit :=
  let commitParts := jsSplitPipe commitLine
  let commitHash := commitParts.getD 0 ""
  let commitMessage := commitParts.getD 1 ""
  let commitAuthor := commitParts.getD 2 ""
  let commitDate := commitParts.getD 3 ""
  let parsed := parseCommitMessage commitMessage
  { hash := String.mk (commitHash.data.take 8),
    type := if parsed.type = "" then "chore" else parsed.type,
    scope := parsed.scope,
    subject := if parsed.subject = "" then commitMessage else parsed.subject,
    breaking := parsed.breaking.getD false,
    author := commitAuthor,
    date := commitDate }

/-- The keyword-to-type table of spec §4.1 as a function of one token
(claim-side definition used to state C3). -/
def keywordTable (w : String) : String :=
  if ["add", "new", "create", "implement"].contains w then "feat"
  else if ["fix", "bug", "issue", "problem"].contains w then "fix"
  else if ["update", "upgrade", "bump"].contains w then "chore"
  else if ["refactor", "clean", "improve"].contains w then "refactor"
  else if ["test", "spec"].contains w then "test"
  else if ["doc", "readme", "comment"].contains w then "docs"
  else "chore"

/-- The first whitespace-delimited token of the lowercased message, in
the ordinary sense of "token": the first non-empty fragment (claim-side
definition used to refute C3 as stated). -/
def firstTokenOf (s : String) : String :=
  ((splitWhitespaceJS (toLowerCaseJS s)).filter (fun w => w ≠ "")).headD ""

/-- C3 counterexample: `" add new feature"` does not match the grammar
and its first whitespace-delimited token is `add`, so the claim predicts
type `feat`; the code splits with `/\s+/`, obtains `""` as first
element, and classifies `chore`. -/
theorem c3_counterexample :
    parseConventional " add new feature" = none ∧
    firstTokenOf " add new feature" = "add" ∧
    keywordTable "add" = "feat" ∧
    (parseCommitMessage " add new feature").type = "chore" := by
  refine ⟨?_, ?_, ?_, ?_⟩ <;> decide

/-- C3 (amended): on every message that does not match the grammar, the
parser classifies by the *first element of the `/\s+/` split* of the
lowercased message — the empty string, classified `chore`, when the
message starts with whitespace or is empty — with the full original
message as subject and no scope or breaking flag; and
`parse "add new feature"` yields `feat` with the whole message as
subject. -/
theorem c3_fallback_classifier (m : String) (h : parseConventional m = none) :
    parseCommitMessage m =
      { type := keywordTable ((splitWhitespaceJS (toLowerCaseJS m)).headD ""),
        scope := none, breaking := none, subject := m } ∧
    parseCommitMessage "add new feature" =
      { type := "feat", scope := none, breaking := none,
        subject := "add new feature" } := by
  constructor
  · unfold parseCommitMessage
    rw [h]
    rfl
  · decide

theorem c3_fallback_classifier_witness :
    parseCommitMessage "update deps" =
      { type := keywordTable ((splitWhitespaceJS (toLowerCaseJS "update deps")).headD ""),
        scope := none, breaking := none, subject := "update deps" } :=
  (c3_fallback_classifier "update deps" (by decide)).1

theorem keywordTable_ne_empty (w : String) : keywordTable w ≠ "" := by
  unfold keywordTable
  split_ifs <;> decide

/-- C4 counterexample: the claim says the subject of the returned commit
is always the original message; for the conventional message
`"feat: improve parser"` the code returns the parsed description
instead. -/
theorem c4_counterexample :
    parseCommitMessage "feat: improve parser" =
      { type := "feat", scope := none, breaking := some false,
        subject := "improve parser" } ∧
    "improve parser" ≠ "feat: improve parser" := by
  exact ⟨by decide, by decide⟩

/-- C4 (amended): classification is total with no error branch — every
message yields a non-empty type (`chore` when nothing else applies), the
subject is the original message exactly on non-conventional input (and
the parsed description otherwise), and the degenerate empty commit line
classifies as `chore` with empty subject, hash, author and date. -/
theorem c4_classification_total (m line : String) :
    (parseCommitMessage m).type ≠ "" ∧
    (parseCommitMessage m).subject =
      (match parseConventional m with
       | none => m
       | some (_, _, _, subj) => if subj = "" then m else subj) ∧
    (parseCommitLine line).type ≠ "" ∧
    parseCommitLine "" =
      { hash := "", type := "chore", scope := none, subject := "",
        breaking := false, author := "", date := "" } := by
  have htype : ∀ m' : String, (parseCommitMessage m').type ≠ "" := by
    intro m'
    unfold parseCommitMessage
    cases hp : parseConventional m' with
    | none =>
      show inferLegacyType m' ≠ ""
      exact keywordTable_ne_empty ((splitWhitespaceJS (toLowerCaseJS m')).headD "")
    | some v =>
      obtain ⟨t, sc, br, subj⟩ := v
      show (if t = "" then "chore" else t) ≠ ""
      split
      · decide
      · assumption
  refine ⟨htype m, ?_, ?_, by decide⟩
  · unfold parseCommitMessage
    cases hp : parseConventional m with
    | none => rfl
    | some v =>
      obtain ⟨t, sc, br, subj⟩ := v
      rfl
  · show (if (parseCommitMessage _).type = "" then "chore"
        else (parseCommitMessage _).type) ≠ ""
    split
    · decide
    · exact htype _

/-- `needle` is a prefix of `hay`. -/
def isPrefixOfChars : List Char → List Char → Bool
  | [], _ => true
  | _ :: _, [] => false
  | a :: as, b :: bs => a = b && isPrefixOfChars as bs

/-- `needle` occurs as a contiguous substring of `hay`. -/
def containsSub (needle : List Char) : List Char → Bool
  | [] => isPrefixOfChars needle []
  | c :: t => isPrefixOfChars needle (c :: t) || containsSub needle t

/-- `String.prototype.includes`. -/
def jsIncludes (s sub : String) : Bool := containsSub sub.data s.data

/-- The `TYPE_KEYWORDS` table of `commitFormatter.ts` (lines 47-60), in
object-literal insertion order (the iteration order of
`Object.entries`). -/
def TYPE_KEYWORDS : List (String × List String) :=
  [("feat", ["add", "new", "create", "implement", "introduce", "support", "enable", "allow"]),
   ("fix", ["fix", "resolve", "repair", "correct", "solve", "patch", "bug", "issue", "error"]),
   ("docs", ["document", "readme", "docs", "comment", "example", "guide", "tutorial"]),
   ("style", ["style", "format", "indent", "whitespace", "prettier", "eslint"]),
   ("refactor", ["refactor", "restructure", "reorganize", "cleanup", "simplify", "extract"]),
   ("perf", ["performance", "optimize", "speed", "fast", "slow", "cache"]),
   ("test", ["test", "spec", "coverage", "mock", "stub", "fixture"]),
   ("build", ["build", "compile", "bundle", "webpack", "rollup", "dependencies"]),
   ("ci", ["ci", "github", "actions", "workflow", "pipeline", "deploy"]),
   ("chore", ["chore", "maintenance", "update", "upgrade", "bump", "version"]),
   ("revert", ["revert", "undo", "rollback", "backout"]),
   ("security", ["security", "vulnerability", "cve", "auth", "permission", "access"])]

/-- `suggestCommitType` of `commitFormatter.ts` (lines 63-73): the first
table entry one of whose keywords occurs as a substring of the lowercased
message, defaulting to `chore`. -/
def suggestCommitType (message : String) : String :=
  let lowerMessage := toLowerCaseJS message
  match TYPE_KEYWORDS.find?
      (fun tk => tk.2.any (fun keyword => jsIncludes lowerMessage keyword)) with
  | some tk => tk.1
  | none => "chore"

/-- First match of `/\(([^)]+)\)/` (leftmost `(` followed by at least
one non-`)` character and then `)`), returning the capture.  When the
char right after `(` is `)`, the scan resumes one position later; when
no `)` exists in the rest, no later start can match either. -/
def findParenScope : List Char → Option (List Char)
  | [] => none
  | c :: rest =>
    if c = '(' then
      let captured := rest.takeWhile (fun ch => ch ≠ ')')
      let after := rest.dropWhile (fun ch => ch ≠ ')')
      match after with
      | ')' :: _ => if captured.isEmpty then findParenScope rest else some captured
      | _ => none
    else findParenScope rest

/-- The `COMMON_SCOPES` list of `commitFormatter.ts` (lines 23-44). -/
def COMMON_SCOPES : List String :=
  ["auth", "api", "ui", "cli", "docs", "test", "build", "ci", "deps",
   "config", "types", "utils", "core", "server", "client", "database",
   "cache", "logging", "monitoring", "security"]

/-- `needle` is a prefix of `hay` and is followed by a word boundary
(end of string or a non-word character). -/
def isPrefixThenBoundary : List Char → List Char → Bool
  | [], [] => true
  | [], c :: _ => !(isWordChar c)
  | _ :: _, [] => false
  | a :: as, b :: bs => a = b && isPrefixThenBoundary as bs

/-- Scan for a `\b needle \b` occurrence; `prevIsWord` tracks whether
the previous character was a word character (false at the start).  Exact
for needles that begin and end with word characters, which all entries
of `COMMON_SCOPES` do. -/
def wordMatchAux : Bool → List Char → List Char → Bool
  | prevIsWord, [], needle => !prevIsWord && isPrefixThenBoundary needle []
  | prevIsWord, c :: rest, needle =>
    (!prevIsWord && isPrefixThenBoundary needle (c :: rest)) ||
      wordMatchAux (isWordChar c) rest needle

/-- ``new RegExp(`\\b${scope}\\b`, 'i').test(lowerMessage)``. -/
def wordBoundaryTest (hay needle : String) : Bool :=
  wordMatchAux false hay.data needle.data

/-- `suggestScope` of `commitFormatter.ts` (lines 76-94): an explicit
`(scopeName)` in the original message wins; otherwise the first common
scope occurring as a whole word in the lowercased message. -/
def suggestScope (message : String) : Option String :=
  match findParenScope message.data with
  | some cap => some (String.mk cap)
  | none =>
    COMMON_SCOPES.find? (fun scope => wordBoundaryTest (toLowerCaseJS message) scope)

/-- `clean.endsWith('.') ? clean.slice(0, -1) : clean`. -/
def stripTrailingDot (cs : List Char) : List Char :=
  match cs.getLast? with
  | some '.' => cs.dropLast
  | _ => cs

/-- `clean.charAt(0).toUpperCase() + clean.slice(1)` (the empty string
stays empty). -/
def capitalizeFirstChars : List Char → List Char
  | [] => []
  | c :: rest => Char.toUpper c :: rest

/-- `cleanMessage` of `commitFormatter.ts` (lines 97-110): trim, strip
one trailing period, lowercase everything, capitalize the first
character. -/
def cleanMessage (message : String) : String :=
  let trimmed := (jsTrim message).data
  let noPeriod := stripTrailingDot trimmed
  let lowered := noPeriod.map Char.toLower
  String.mk (capitalizeFirstChars lowered)

/-- `type || suggestCommitType(message)` (the empty string is falsy). -/
def resolvedType (ty : Option String) (message : String) : String :=
  match ty with
  | some t => if t = "" then suggestCommitType message else t
  | none => suggestCommitType message

/-- `scope || suggestScope(message)` (the empty string is falsy). -/
def resolvedScope (sc : Option String) (message : String) : Option String :=
  match sc with
  | some s => if s = "" then suggestScope message else some s
  | none => suggestScope message

/-- `formatCommitMessage` of `commitFormatter.ts` (lines 113-136); the
`if (suggestedScope)` truthiness test also skips an empty-string
scope. -/
def formatCommitMessage (message : String) (ty sc : Option String)
    (breaking : Bool) : String :=
  let cleanMsg := cleanMessage message
  let suggestedType := resolvedType ty message
  let suggestedScope := resolvedScope sc message
  let withScope :=
    match suggestedScope with
    | some s => if s = "" then suggestedType else suggestedType ++ "(" ++ s ++ ")"
    | none => suggestedType
  let withBang := if breaking then withScope ++ "!" else withScope
  withBang ++ ": " ++ cleanMsg

/-- C7 counterexample: `problem` is a keyword of the parser's §4.1
fallback table (→ `fix`), but the formatter's suggester — whose own
table has no keyword occurring in `"problem"` — returns `chore`, so the
two heuristics disagree on this single-keyword message. -/
theorem c7_counterexample :
    parseConventional "problem" = none ∧
    (parseCommitMessage "problem").type = "fix" ∧
    suggestCommitType "problem" = "chore" := by
  refine ⟨?_, ?_, ?_⟩ <;> decide

/-- C7 (amended): the formatter resolves the type via its own, broader
keyword table scanned over the whole message; on single-keyword messages
from the parser's §4.1 table the two heuristics agree except on
`problem`, `clean`, `improve` and `doc`, where the suggester falls back
to `chore` while the parser returns `fix`, `refactor`, `refactor` and
`docs` respectively. -/
theorem c7_single_keyword_agreement :
    (∀ w ∈ (["add", "new", "create", "implement", "fix", "bug", "issue",
        "update", "upgrade", "bump", "refactor", "test", "spec", "readme",
        "comment"] : List String),
      suggestCommitType w = (parseCommitMessage w).type) ∧
    suggestCommitType "problem" = "chore" ∧
    (parseCommitMessage "problem").type = "fix" ∧
    suggestCommitType "clean" = "chore" ∧
    (parseCommitMessage "clean").type = "refactor" ∧
    suggestCommitType "improve" = "chore" ∧
    (parseCommitMessage "improve").type = "refactor" ∧
    suggestCommitType "doc" = "chore" ∧
    (parseCommitMessage "doc").type = "docs" := by
  refine ⟨?_, ?_, ?_, ?_, ?_, ?_, ?_, ?_, ?_⟩ <;> decide

theorem c7_single_keyword_agreement_witness :
    suggestCommitType "add" = (parseCommitMessage "add").type :=
  c7_single_keyword_agreement.1 "add" (by decide)

/-- The scope segment `(scope)` of the formatted message, empty when no
scope is resolved (or the resolved scope is the falsy empty string). -/
def scopeSegOf : Option String → String
  | some s => if s = "" then "" else "(" ++ s ++ ")"
  | none => ""

theorem formatCommitMessage_shape (message : String) (ty sc : Option String)
    (breaking : Bool) :
    formatCommitMessage message ty sc breaking =
      resolvedType ty message ++ scopeSegOf (resolvedScope sc message) ++
        (if breaking then "!" else "") ++ ": " ++ cleanMessage message := by
  simp only [formatCommitMessage]
  cases hsc : resolvedScope sc message with
  | none =>
    cases breaking <;> simp [scopeSegOf, str_append_assoc, str_append_empty]
  | some s =>
    by_cases hse : s = ""
    · subst hse
      cases breaking <;> simp [scopeSegOf, str_append_assoc, str_append_empty]
    · cases breaking <;> simp [scopeSegOf, hse, str_append_assoc, str_append_empty]

/-- C8: `formatCommitMessage` always returns
`type[(scope)][!]: Subject`, where the subject is the message trimmed,
one trailing period stripped, fully lowercased and then capitalised on
the first character only; and `formatCommitMessage "fix login bug"`
is `"fix: Fix login bug"`. -/
theorem c8_formatCommitMessage (message : String) (ty sc : Option String)
    (breaking : Bool) :
    (∃ scopeSeg : String,
      (scopeSeg = "" ∨ ∃ w, w ≠ "" ∧ scopeSeg = "(" ++ w ++ ")") ∧
      formatCommitMessage message ty sc breaking =
        resolvedType ty message ++ scopeSeg ++ (if breaking then "!" else "") ++
          ": " ++
          String.mk (capitalizeFirstChars
            ((stripTrailingDot (jsTrim message).data).map Char.toLower))) ∧
    formatCommitMessage "fix login bug" none none false = "fix: Fix login bug" := by
  constructor
  · refine ⟨scopeSegOf (resolvedScope sc message), ?_, ?_⟩
    · cases hsc : resolvedScope sc message with
      | none => exact Or.inl rfl
      | some s =>
        by_cases hse : s = ""
        · exact Or.inl (by simp [scopeSegOf, hse])
        · exact Or.inr ⟨s, hse, by simp [scopeSegOf, hse]⟩
    · exact formatCommitMessage_shape message ty sc breaking
  · decide

/-- The `COMMIT_TYPES` table of `changelogGenerator.ts` (lines 32-45):
type, emoji, section title. -/
def COMMIT_TYPES : List (String × String × String) :=
  [("feat", "✨", "Features"), ("fix", "🐛", "Bug Fixes"),
   ("docs", "📚", "Documentation"), ("style", "💄", "Styles"),
   ("refactor", "♻️", "Code Refactoring"),
   ("perf", "⚡", "Performance Improvements"), ("test", "✅", "Tests"),
   ("build", "📦", "Builds"), ("ci", "🔧", "Continuous Integration"),
   ("chore", "🔨", "Chores"), ("revert", "⏪", "Reverts"),
   ("security", "🔒", "Security Fixes")]

/-- `getSectionKey` of `changelogGenerator.ts` (lines 180-183). -/
def getSectionKey (commitType : String) : String :=
  match COMMIT_TYPES.find? (fun t => t.1 == commitType) with
  | some t => t.2.1 ++ " " ++ t.2.2
  | none => "🔧 Other Changes"

/-- `commit.scope ? scope + ': ' : ''` (empty string is falsy). -/
def scopeColonPrefix : Option String → String
  | some sc => if sc = "" then "" else sc ++ ": "
  | none => ""

/-- One bullet of the breaking-changes block. -/
def bulletBreaking (c : Commit) : String :=
  "- **" ++ scopeColonPrefix c.scope ++ c.subject ++ "** (" ++ c.hash ++ ")\n"

/-- `generateBreakingChangesSection` of `changelogGenerator.ts`
(lines 212-228). -/
def generateBreakingChangesSection (sections : List ChangelogSection) : String :=
  let breakingChanges :=
    (sections.map (fun s => s.commits.filter (fun c => c.breaking))).flatten
  if breakingChanges.isEmpty then ""
  else
    (breakingChanges.foldl (fun acc c => acc ++ bulletBreaking c)
      "### ⚠️ BREAKING CHANGES\n\n") ++ "\n"

/-- `sectionCommit.scope ? '**' + scope + ':** ' : ''`. -/
def boldScopePrefix : Option String → String
  | some sc => if sc = "" then "" else "**" ++ sc ++ ":** "
  | none => ""

/-- One bullet of a type section. -/
def bulletScoped (c : Commit) : String :=
  "- " ++ boldScopePrefix c.scope ++ c.subject ++ " (" ++ c.hash ++ ")\n"

/-- `generateSectionContent` of `changelogGenerator.ts` (lines 231-242). -/
def generateSectionContent (sec : ChangelogSection) : String :=
  if sec.commits.isEmpty then ""
  else
    let content := "### " ++ sec.title ++ "\n\n"
    let content := sec.commits.foldl (fun acc c => acc ++ bulletScoped c) content
    content ++ "\n"

/-- Deduplication keeping the first occurrence of each element, in
order: the observable content of `new Set(...)` iterated in insertion
order. -/
def dedupFirst (l : List String) : List String :=
  l.foldl (fun acc x => if x ∈ acc then acc else acc ++ [x]) []

/-- All `author` fields across all sections, in iteration order. -/
def allAuthors (sections : List ChangelogSection) : List String :=
  (sections.map (fun s => s.commits.map (fun c => c.author))).flatten

/-- `generateContributorsSection` of `changelogGenerator.ts`
(lines 245-256). -/
def generateContributorsSection (sections : List ChangelogSection) : String :=
  let contributors := dedupFirst (allAuthors sections)
  if contributors.isEmpty then ""
  else
    "### 👥 Contributors\n\n" ++
      ("Thanks to " ++ String.intercalate ", " contributors ++
        " for contributing to this release!\n\n")

/-- `generateChangelogContent` of `changelogGenerator.ts`
(lines 259-276). -/
def generateChangelogContent (releaseInfo : ReleaseInfo) : String :=
  let content := "## [" ++ releaseInfo.version ++ "] - " ++ releaseInfo.date ++
    " (" ++ releaseInfo.type.upper ++ " RELEASE)\n\n"
  let content := content ++ generateBreakingChangesSection releaseInfo.sections
  let content := releaseInfo.sections.foldl
    (fun acc s => acc ++ generateSectionContent s) content
  content ++ generateContributorsSection releaseInfo.sections

theorem str_foldl_append {α : Type} (f : α → String) (l : List α) (a : String) :
    l.foldl (fun r s => r ++ f s) a = a ++ l.foldl (fun r s => r ++ f s) "" := by
  induction l generalizing a with
  | nil => exact (str_append_empty a).symm
  | cons x t ih =>
    show t.foldl _ (a ++ f x) = a ++ t.foldl _ ("" ++ f x)
    rw [ih (a ++ f x), ih ("" ++ f x)]
    have he : ("" : String) ++ f x = f x := rfl
    rw [he, str_append_assoc]

theorem str_join_cons (x : String) (xs : List String) :
    String.join (x :: xs) = x ++ String.join xs := by
  show (x :: xs).foldl (fun r s => r ++ s) "" = x ++ xs.foldl (fun r s => r ++ s) ""
  show xs.foldl (fun r s => r ++ s) ("" ++ x) = _
  have he : ("" : String) ++ x = x := rfl
  rw [he]
  exact str_foldl_append (fun s => s) xs x

theorem foldl_append_str {α : Type} (f : α → String) (l : List α) (init : String) :
    l.foldl (fun acc s => acc ++ f s) init = init ++ String.join (l.map f) := by
  induction l generalizing init with
  | nil => exact (str_append_empty init).symm
  | cons a t ih =>
    show t.foldl _ (init ++ f a) = init ++ String.join (f a :: t.map f)
    rw [ih (init ++ f a), str_join_cons, str_append_assoc]

theorem join_sections_filter (l : List ChangelogSection) :
    String.join ((l.filter (fun s => !s.commits.isEmpty)).map generateSectionContent) =
      String.join (l.map generateSectionContent) := by
  induction l with
  | nil => rfl
  | cons s t ih =>
    by_cases hs : s.commits.isEmpty
    · have hgen : generateSectionContent s = "" := by
        unfold generateSectionContent
        rw [if_pos hs]
      have hf : (s :: t).filter (fun sec => !sec.commits.isEmpty) =
          t.filter (fun sec => !sec.commits.isEmpty) := by
        simp [List.filter, hs]
      rw [hf, ih, List.map_cons, str_join_cons, hgen]
      rfl
    · have hf : (s :: t).filter (fun sec => !sec.commits.isEmpty) =
          s :: t.filter (fun sec => !sec.commits.isEmpty) := by
        simp [List.filter, hs]
      rw [hf, List.map_cons, List.map_cons, str_join_cons, str_join_cons, ih]

theorem str_append3_ne_empty (a b c : String) (ha : a.data ≠ []) :
    a ++ b ++ c ≠ "" := by
  intro h
  have hdata : (a ++ b ++ c).data = a.data ++ b.data ++ c.data := by
    cases a
    cases b
    cases c
    rfl
  have hd := congrArg String.data h
  rw [hdata] at hd
  simp at hd
  exact ha hd.1

theorem dedupFirst_ne_nil {l : List String} (h : l ≠ []) : dedupFirst l ≠ [] := by
  have key : ∀ (t : List String) (acc : List String), acc ≠ [] →
      t.foldl (fun a x => if x ∈ a then a else a ++ [x]) acc ≠ [] := by
    intro t
    induction t with
    | nil => intro acc hacc; exact hacc
    | cons y ys ih =>
      intro acc hacc
      apply ih
      by_cases hy : y ∈ acc
      · simpa [hy] using hacc
      · simp [hy]
  cases l with
  | nil => exact absurd rfl h
  | cons x t =>
    show (x :: t).foldl (fun a y => if y ∈ a then a else a ++ [y]) [] ≠ []
    have h0 : ((if x ∈ ([] : List String) then ([] : List String) else [] ++ [x])) = [x] := by
      simp
    show t.foldl _ (if x ∈ ([] : List String) then ([] : List String) else [] ++ [x]) ≠ []
    rw [h0]
    exact key t [x] (by simp)

/-- The empty release used by the C5 counterexample. -/
def demoEmptyRelease : ReleaseInfo :=
  { version := "1.0.0", date := "2024-01-01", type := .patch, sections := [] }

/-- C5 counterexample: the claim requires a contributors block in every
rendering; for a release with no sections the output is the bare header,
and contains no `Thanks to` sentence at all. -/
theorem c5_counterexample :
    generateChangelogContent demoEmptyRelease =
      "## [1.0.0] - 2024-01-01 (PATCH RELEASE)\n\n" ∧
    jsIncludes (generateChangelogContent demoEmptyRelease) "Thanks to" = false ∧
    generateContributorsSection ([] : List ChangelogSection) = "" := by
  refine ⟨?_, ?_, ?_⟩ <;> decide

/-- C5 (amended): the rendering is, in fixed order, the header line,
then the breaking-changes block — present exactly when some commit of
some section is breaking — then one block per non-empty section in
section order, then the contributors block, which renders the
deduplicated author list as the `Thanks to …` sentence whenever at least
one commit exists and is omitted entirely otherwise. -/
theorem c5_render_structure (r : ReleaseInfo) :
    (generateChangelogContent r =
      "## [" ++ r.version ++ "] - " ++ r.date ++ " (" ++ r.type.upper ++
          " RELEASE)\n\n" ++
        generateBreakingChangesSection r.sections ++
        String.join ((r.sections.filter
          (fun s => !s.commits.isEmpty)).map generateSectionContent) ++
        generateContributorsSection r.sections) ∧
    ((generateBreakingChangesSection r.sections = "") ↔
      ∀ s ∈ r.sections, ∀ c ∈ s.commits, c.breaking = false) ∧
    (allAuthors r.sections = [] → generateContributorsSection r.sections = "") ∧
    (allAuthors r.sections ≠ [] →
      generateContributorsSection r.sections =
        "### 👥 Contributors\n\n" ++
          ("Thanks to " ++ String.intercalate ", " (dedupFirst (allAuthors r.sections)) ++
            " for contributing to this release!\n\n")) := by
  refine ⟨?_, ?_, ?_, ?_⟩
  · show (r.sections.foldl (fun acc s => acc ++ generateSectionContent s)
        ("## [" ++ r.version ++ "] - " ++ r.date ++ " (" ++ r.type.upper ++
            " RELEASE)\n\n" ++ generateBreakingChangesSection r.sections)) ++
        generateContributorsSection r.sections = _
    rw [foldl_append_str, ← join_sections_filter, str_append_assoc]
  · unfold generateBreakingChangesSection
    by_cases hbc : ((r.sections.map
        (fun s => s.commits.filter (fun c => c.breaking))).flatten).isEmpty
    · rw [if_pos hbc]
      simp only [List.isEmpty_iff, List.flatten_eq_nil_iff] at hbc
      constructor
      · intro _ s hs c hc
        by_contra hcb
        have : s.commits.filter (fun c => c.breaking) = [] :=
          hbc _ (List.mem_map_of_mem _ hs)
        rw [List.filter_eq_nil_iff] at this
        exact this c hc (by simpa using hcb)
      · intro _
        rfl
    · rw [if_neg hbc]
      constructor
      · intro h
        rw [foldl_append_str] at h
        exact absurd h
          (str_append3_ne_empty "### ⚠️ BREAKING CHANGES\n\n" _ _ (by decide))
      · intro hall
        exfalso
        apply hbc
        simp only [List.isEmpty_iff, List.flatten_eq_nil_iff]
        intro x hx
        rw [List.mem_map] at hx
        obtain ⟨s, hs, rfl⟩ := hx
        rw [List.filter_eq_nil_iff]
        intro c hc
        simp [hall s hs c hc]
  · intro h
    unfold generateContributorsSection
    rw [h]
    rfl
  · intro h
    unfold generateContributorsSection
    rw [if_neg (by simpa [List.isEmpty_iff] using dedupFirst_ne_nil h)]

/-- The one-feature release used by the C5 and C6 witnesses. -/
def demoRelease : ReleaseInfo :=
  { version := "1.1.0", date := "2024-03-02", type := .minor,
    sections := [{ title := "✨ Features", commits := [demoFeat] }] }

theorem c5_render_structure_witness :
    generateContributorsSection demoRelease.sections =
      "### 👥 Contributors\n\n" ++
        ("Thanks to " ++
          String.intercalate ", " (dedupFirst (allAuthors demoRelease.sections)) ++
          " for contributing to this release!\n\n") :=
  (c5_render_structure demoRelease).2.2.2 (by decide)

/-- Model of `new Date(s).getTime()` restricted to the `YYYY-MM-DD`
short-date strings produced by `git log --date=short`: a monotone
integer encoding (other strings, NaN at runtime where the comparator
becomes inconsistent, are totalised to 0). -/
def dateKey (s : String) : Int :=
  match splitCharsBy (fun c => c = '-') s.data with
  | [y, m, d] =>
    if !y.isEmpty && !m.isEmpty && !d.isEmpty &&
        y.all Char.isDigit && m.all Char.isDigit && d.all Char.isDigit then
      ((digitsVal y) * 10000 + (digitsVal m) * 100 + digitsVal d : Int)
    else 0
  | _ => 0

/-- One step of the stable sort modelling `Array.prototype.sort` with
comparator `(a, b) => dateKey b - dateKey a` (descending by date):
insert `c` after every element whose key is ≥ its own. -/
def insertByDate (c : Commit) : List Commit → List Commit
  | [] => [c]
  | a :: as =>
    if dateKey a.date < dateKey c.date then c :: a :: as
    else a :: insertByDate c as

/-- `sortCommitsByDate` of `changelogGenerator.ts` (lines 186-190):
ES2019 requires `Array.prototype.sort` to be stable, so it is modelled
by a stable insertion sort. -/
def sortCommitsByDate (commits : List Commit) : List Commit :=
  commits.foldl (fun acc c => insertByDate c acc) []

/-- One step of the insertion-ordered `Map` accumulation of
`categorizeCommits`: push onto the existing entry, or append a new
entry at the end. -/
def insertCommit : List (String × List Commit) → String → Commit →
    List (String × List Commit)
  | [], key, c => [(key, [c])]
  | (k, cs) :: rest, key, c =>
    if k = key then (k, cs ++ [c]) :: rest
    else (k, cs) :: insertCommit rest key c

/-- The `Map` contents built by the loop of `categorizeCommits`
(`changelogGenerator.ts` lines 193-203), in insertion order. -/
def categorizeGroups (commits : List Commit) : List (String × List Commit) :=
  commits.foldl (fun acc c => insertCommit acc (getSectionKey c.type) c) []

/-- `categorizeCommits` of `changelogGenerator.ts` (lines 193-209). -/
def categorizeCommits (commits : List Commit) : List ChangelogSection :=
  (categorizeGroups commits).map
    (fun g => { title := g.1, commits := sortCommitsByDate g.2 })

/-- First-matching-entry lookup in the association list. -/
def groupOf : List (String × List Commit) → String → List Commit
  | [], _ => []
  | (k, g) :: rest, key => if k = key then g else groupOf rest key

theorem groupOf_insert (acc : List (String × List Commit)) (key : String)
    (c : Commit) (k' : String) :
    groupOf (insertCommit acc key c) k' =
      if key = k' then groupOf acc k' ++ [c] else groupOf acc k' := by
  induction acc with
  | nil => by_cases h : key = k' <;> simp [insertCommit, groupOf, h]
  | cons p rest ih =>
    obtain ⟨k, g⟩ := p
    by_cases hk : k = key
    · subst hk
      by_cases hk' : k = k' <;> simp [insertCommit, groupOf, hk', ih]
    · by_cases hk' : k = k'
      · have hne : ¬(key = k') := fun he => hk (hk'.trans he.symm)
        have hne2 : ¬(k' = key) := fun he => hne he.symm
        simp [insertCommit, groupOf, hk', hne, hne2]
      · simp [insertCommit, groupOf, hk, hk', ih]

theorem groupOf_fold (l : List Commit) :
    ∀ (acc : List (String × List Commit)) (k : String),
    groupOf (l.foldl (fun a c => insertCommit a (getSectionKey c.type) c) acc) k =
      groupOf acc k ++ l.filter (fun c => getSectionKey c.type == k) := by
  induction l with
  | nil => intro acc k; simp
  | cons c t ih =>
    intro acc k
    show groupOf (t.foldl _ (insertCommit acc (getSectionKey c.type) c)) k = _
    rw [ih, groupOf_insert]
    by_cases hc : getSectionKey c.type = k
    · simp [hc, List.filter_cons, List.append_assoc]
    · simp [hc, List.filter_cons]

theorem keys_insert (acc : List (String × List Commit)) (key : String) (c : Commit) :
    (insertCommit acc key c).map Prod.fst =
      if key ∈ acc.map Prod.fst then acc.map Prod.fst
      else acc.map Prod.fst ++ [key] := by
  induction acc with
  | nil => simp [insertCommit]
  | cons p rest ih =>
    obtain ⟨k, g⟩ := p
    by_cases hk : k = key
    · subst hk
      simp [insertCommit]
    · have hne : ¬(key = k) := fun he => hk he.symm
      by_cases hmem : key ∈ rest.map Prod.fst
      · simp [insertCommit, hk, ih, hmem, hne]
      · simp [insertCommit, hk, ih, hmem, hne]

theorem keys_nodup_fold (l : List Commit) :
    ∀ acc : List (String × List Commit), (acc.map Prod.fst).Nodup →
    ((l.foldl (fun a c => insertCommit a (getSectionKey c.type) c) acc).map
      Prod.fst).Nodup := by
  induction l with
  | nil => intro acc h; exact h
  | cons c t ih =>
    intro acc h
    apply ih
    rw [keys_insert]
    by_cases hmem : getSectionKey c.type ∈ acc.map Prod.fst
    · rwa [if_pos hmem]
    · rw [if_neg hmem, List.nodup_append]
      refine ⟨h, List.nodup_singleton _, ?_⟩
      intro a ha hb
      simp at hb
      subst hb
      exact hmem ha

theorem groupOf_of_mem :
    ∀ {acc : List (String × List Commit)}, (acc.map Prod.fst).Nodup →
    ∀ {k : String} {g : List Commit}, (k, g) ∈ acc → groupOf acc k = g := by
  intro acc
  induction acc with
  | nil => intro _ k g h; cases h
  | cons p rest ih =>
    intro hnd k g h
    obtain ⟨k0, g0⟩ := p
    rw [List.map_cons, List.nodup_cons] at hnd
    rcases List.mem_cons.mp h with h | h
    · injection h with hk hg
      subst hk
      subst hg
      simp [groupOf]
    · have hkne : ¬(k0 = k) := by
        intro he
        subst he
        exact hnd.1 (List.mem_map.mpr ⟨(k0, g), h, rfl⟩)
      simp only [groupOf, if_neg hkne]
      exact ih hnd.2 h

theorem group_content {commits : List Commit} {k : String} {g : List Commit}
    (h : (k, g) ∈ categorizeGroups commits) :
    g = commits.filter (fun c => getSectionKey c.type == k) := by
  have hnd : ((categorizeGroups commits).map Prod.fst).Nodup :=
    keys_nodup_fold commits [] (by simp)
  have h1 := groupOf_of_mem hnd h
  have h2 : groupOf (categorizeGroups commits) k =
      groupOf [] k ++ commits.filter (fun c => getSectionKey c.type == k) :=
    groupOf_fold commits [] k
  rw [h1] at h2
  simpa [groupOf] using h2

theorem insert_nonempty (acc : List (String × List Commit)) (key : String)
    (c : Commit) (h : ∀ p ∈ acc, p.2 ≠ ([] : List Commit)) :
    ∀ p ∈ insertCommit acc key c, p.2 ≠ ([] : List Commit) := by
  induction acc with
  | nil =>
    intro p hp
    simp [insertCommit] at hp
    subst hp
    simp
  | cons q rest ih =>
    obtain ⟨k, g⟩ := q
    intro p hp
    by_cases hk : k = key
    · simp only [insertCommit, if_pos hk] at hp
      rcases List.mem_cons.mp hp with hp | hp
      · subst hp; simp
      · exact h p (List.mem_cons_of_mem _ hp)
    · simp only [insertCommit, if_neg hk] at hp
      rcases List.mem_cons.mp hp with hp | hp
      · subst hp
        exact h (k, g) (List.mem_cons_self _ _)
      · exact ih (fun q hq => h q (List.mem_cons_of_mem _ hq)) p hp

theorem groups_nonempty (commits : List Commit) :
    ∀ p ∈ categorizeGroups commits, p.2 ≠ ([] : List Commit) := by
  suffices key : ∀ (l : List Commit) (acc : List (String × List Commit)),
      (∀ p ∈ acc, p.2 ≠ ([] : List Commit)) →
      ∀ p ∈ l.foldl (fun a c => insertCommit a (getSectionKey c.type) c) acc,
        p.2 ≠ ([] : List Commit) by
    exact key commits [] (by simp)
  intro l
  induction l with
  | nil => intro acc h; exact h
  | cons c t ih =>
    intro acc h
    exact ih _ (insert_nonempty acc (getSectionKey c.type) c h)

theorem flatten_insert_perm (acc : List (String × List Commit)) (key : String)
    (c : Commit) :
    ((insertCommit acc key c).map Prod.snd).flatten.Perm
      (((acc.map Prod.snd).flatten) ++ [c]) := by
  induction acc with
  | nil => simp [insertCommit]
  | cons p rest ih =>
    obtain ⟨k, g⟩ := p
    by_cases hk : k = key
    · simp only [insertCommit, if_pos hk, List.map_cons, List.flatten_cons]
      rw [List.append_assoc, List.append_assoc]
      exact List.Perm.append_left g List.perm_append_comm
    · simp only [insertCommit, if_neg hk, List.map_cons, List.flatten_cons]
      rw [List.append_assoc]
      exact List.Perm.append_left g ih

theorem flatten_fold_perm (l : List Commit) :
    ∀ acc : List (String × List Commit),
    ((l.foldl (fun a c => insertCommit a (getSectionKey c.type) c) acc).map
      Prod.snd).flatten.Perm ((acc.map Prod.snd).flatten ++ l) := by
  induction l with
  | nil => intro acc; simp
  | cons c t ih =>
    intro acc
    show ((t.foldl _ (insertCommit acc (getSectionKey c.type) c)).map
      Prod.snd).flatten.Perm _
    have step1 := ih (insertCommit acc (getSectionKey c.type) c)
    have step2 : (((insertCommit acc (getSectionKey c.type) c).map
        Prod.snd).flatten ++ t).Perm
        ((((acc.map Prod.snd).flatten) ++ [c]) ++ t) :=
      List.Perm.append_right t (flatten_insert_perm acc _ c)
    have step3 : ((((acc.map Prod.snd).flatten) ++ [c]) ++ t) =
        (acc.map Prod.snd).flatten ++ (c :: t) := by
      rw [List.append_assoc]
      rfl
    exact (step1.trans step2).trans (step3 ▸ List.Perm.refl _)

theorem mem_insertByDate {x c : Commit} :
    ∀ {l : List Commit}, x ∈ insertByDate c l ↔ x = c ∨ x ∈ l := by
  intro l
  induction l with
  | nil => simp [insertByDate]
  | cons a as ih =>
    by_cases hlt : dateKey a.date < dateKey c.date
    · simp [insertByDate, hlt]
    · simp only [insertByDate, if_neg hlt, List.mem_cons, ih]
      tauto

theorem insertByDate_sorted (c : Commit) :
    ∀ {l : List Commit},
    List.Pairwise (fun a b => dateKey b.date ≤ dateKey a.date) l →
    List.Pairwise (fun a b => dateKey b.date ≤ dateKey a.date)
      (insertByDate c l) := by
  intro l
  induction l with
  | nil => intro _; simp [insertByDate]
  | cons a as ih =>
    intro hp
    rw [List.pairwise_cons] at hp
    obtain ⟨ha, has⟩ := hp
    by_cases hlt : dateKey a.date < dateKey c.date
    · simp only [insertByDate, if_pos hlt]
      rw [List.pairwise_cons]
      refine ⟨?_, ?_⟩
      · intro b hb
        rcases List.mem_cons.mp hb with hb | hb
        · subst hb; exact le_of_lt hlt
        · exact le_trans (ha b hb) (le_of_lt hlt)
      · rw [List.pairwise_cons]
        exact ⟨ha, has⟩
    · simp only [insertByDate, if_neg hlt]
      rw [List.pairwise_cons]
      refine ⟨?_, ih has⟩
      intro b hb
      rcases mem_insertByDate.mp hb with hb | hb
      · subst hb; exact le_of_not_lt hlt
      · exact ha b hb

theorem insertByDate_perm (c : Commit) (l : List Commit) :
    (insertByDate c l).Perm (c :: l) := by
  induction l with
  | nil => exact List.Perm.refl _
  | cons a as ih =>
    by_cases hlt : dateKey a.date < dateKey c.date
    · simp only [insertByDate, if_pos hlt]
      exact List.Perm.refl _
    · simp only [insertByDate, if_neg hlt]
      exact (ih.cons a).trans (List.Perm.swap c a as)

theorem filter_eq_nil_of_lt {kk : Int} {l : List Commit}
    (h : ∀ x ∈ l, dateKey x.date < kk) :
    l.filter (fun x => dateKey x.date == kk) = [] := by
  rw [List.filter_eq_nil_iff]
  intro x hx
  simp [Int.ne_of_lt (h x hx)]

theorem filter_insertByDate (c : Commit) (kk : Int) :
    ∀ (l : List Commit),
    List.Pairwise (fun a b => dateKey b.date ≤ dateKey a.date) l →
    (insertByDate c l).filter (fun x => dateKey x.date == kk) =
      (if dateKey c.date = kk then
        l.filter (fun x => dateKey x.date == kk) ++ [c]
      else l.filter (fun x => dateKey x.date == kk)) := by
  intro l
  induction l with
  | nil =>
    intro _
    by_cases hc : dateKey c.date = kk <;> simp [insertByDate, hc]
  | cons a as ih =>
    intro hp
    rw [List.pairwise_cons] at hp
    obtain ⟨ha, has⟩ := hp
    by_cases hlt : dateKey a.date < dateKey c.date
    · simp only [insertByDate, if_pos hlt]
      by_cases hc : dateKey c.date = kk
      · have hnil : (a :: as).filter (fun x => dateKey x.date == kk) = [] := by
          apply filter_eq_nil_of_lt
          intro x hx
          rcases List.mem_cons.mp hx with hx | hx
          · subst hx
            exact lt_of_lt_of_eq hlt hc
          · exact lt_of_le_of_lt (ha x hx) (lt_of_lt_of_eq hlt hc)
        rw [if_pos hc, hnil]
        have hfc : (c :: a :: as).filter (fun x => dateKey x.date == kk) =
            c :: ((a :: as).filter (fun x => dateKey x.date == kk)) := by
          simp [List.filter_cons, hc]
        rw [hfc, hnil]
        rfl
      · rw [if_neg hc]
        simp [List.filter_cons, hc]
    · simp only [insertByDate, if_neg hlt]
      by_cases hak : dateKey a.date = kk <;>
        by_cases hc : dateKey c.date = kk <;>
          simp [List.filter_cons, hak, hc, ih has]

theorem sortCommitsByDate_fold (l : List Commit) :
    ∀ acc : List Commit,
    List.Pairwise (fun a b => dateKey b.date ≤ dateKey a.date) acc →
    List.Pairwise (fun a b => dateKey b.date ≤ dateKey a.date)
      (l.foldl (fun a c => insertByDate c a) acc) ∧
    ∀ kk : Int,
      (l.foldl (fun a c => insertByDate c a) acc).filter
          (fun x => dateKey x.date == kk) =
        acc.filter (fun x => dateKey x.date == kk) ++
          l.filter (fun x => dateKey x.date == kk) := by
  induction l with
  | nil =>
    intro acc h
    exact ⟨h, fun kk => by simp⟩
  | cons c t ih =>
    intro acc h
    obtain ⟨hs, hf⟩ := ih (insertByDate c acc) (insertByDate_sorted c h)
    refine ⟨hs, fun kk => ?_⟩
    show (t.foldl _ (insertByDate c acc)).filter _ = _
    rw [hf kk, filter_insertByDate c kk acc h]
    by_cases hc : dateKey c.date = kk
    · simp [List.filter_cons, hc, List.append_assoc]
    · simp [List.filter_cons, hc]

theorem sortCommitsByDate_sorted (l : List Commit) :
    List.Pairwise (fun a b => dateKey b.date ≤ dateKey a.date)
      (sortCommitsByDate l) :=
  (sortCommitsByDate_fold l [] List.Pairwise.nil).1

theorem sortCommitsByDate_filter (l : List Commit) (kk : Int) :
    (sortCommitsByDate l).filter (fun x => dateKey x.date == kk) =
      l.filter (fun x => dateKey x.date == kk) := by
  have h := (sortCommitsByDate_fold l [] List.Pairwise.nil).2 kk
  simpa using h

theorem sortCommitsByDate_perm (l : List Commit) :
    (sortCommitsByDate l).Perm l := by
  suffices key : ∀ (t acc : List Commit),
      (t.foldl (fun a c => insertByDate c a) acc).Perm (acc ++ t) by
    simpa using key l []
  intro t
  induction t with
  | nil => intro acc; simp
  | cons c ct ih =>
    intro acc
    show (ct.foldl _ (insertByDate c acc)).Perm _
    exact ((ih (insertByDate c acc)).trans
      (List.Perm.append_right ct (insertByDate_perm c acc))).trans
      List.perm_middle.symm

theorem categorize_titles (commits : List Commit) :
    (categorizeCommits commits).map (fun sec => sec.title) =
      dedupFirst (commits.map (fun c => getSectionKey c.type)) := by
  suffices key : ∀ (l : List Commit) (acc : List (String × List Commit)),
      ((l.foldl (fun a c => insertCommit a (getSectionKey c.type) c) acc).map
        Prod.fst) =
      (l.map (fun c => getSectionKey c.type)).foldl
        (fun ks x => if x ∈ ks then ks else ks ++ [x]) (acc.map Prod.fst) by
    have h := key commits []
    simp only [categorizeCommits, List.map_map]
    calc (categorizeGroups commits).map
          ((fun sec => sec.title) ∘
            (fun g => ChangelogSection.mk g.1 (sortCommitsByDate g.2)))
        = (categorizeGroups commits).map Prod.fst := by
          apply List.map_congr_left
          intro g _
          rfl
      _ = dedupFirst (commits.map (fun c => getSectionKey c.type)) := by
          rw [categorizeGroups, h]
          rfl
  intro l
  induction l with
  | nil => intro acc; rfl
  | cons c t ih =>
    intro acc
    show ((t.foldl _ (insertCommit acc (getSectionKey c.type) c)).map Prod.fst) = _
    rw [ih, keys_insert]
    rfl

/-- C6: `categorizeCommits` emits sections in first-occurrence order of
their keys, and inside every section the commits are sorted by date
descending, commits sharing a date keeping their original relative
order (the filter to any fixed date key is unchanged by the sort). -/
theorem c6_categorize_order (commits : List Commit) (s : ChangelogSection)
    (hs : s ∈ categorizeCommits commits) :
    ((categorizeCommits commits).map (fun sec => sec.title) =
      dedupFirst (commits.map (fun c => getSectionKey c.type))) ∧
    List.Pairwise (fun a b => dateKey b.date ≤ dateKey a.date) s.commits ∧
    ∀ kk : Int, s.commits.filter (fun c => dateKey c.date == kk) =
      (commits.filter (fun c => getSectionKey c.type == s.title)).filter
        (fun c => dateKey c.date == kk) := by
  obtain ⟨g, hg, rfl⟩ := List.mem_map.mp hs
  have hcontent : g.2 = commits.filter
      (fun c => getSectionKey c.type == g.1) := group_content hg
  refine ⟨categorize_titles commits, sortCommitsByDate_sorted g.2, fun kk => ?_⟩
  show (sortCommitsByDate g.2).filter _ = _
  rw [sortCommitsByDate_filter, hcontent]

theorem c6_categorize_order_witness :
    List.Pairwise (fun a b => dateKey b.date ≤ dateKey a.date)
      (ChangelogSection.mk "✨ Features" [demoFeat, demoBreaking]).commits :=
  (c6_categorize_order [demoFeat, demoBreaking, demoFix]
    (ChangelogSection.mk "✨ Features" [demoFeat, demoBreaking])
    (by decide)).2.1

/-- C10: `categorizeCommits` partitions its input — the concatenation of
all emitted sections is a permutation of the input list — and no emitted
section is empty. -/
theorem c10_categorize_partition (commits : List Commit) :
    ((((categorizeCommits commits).map (fun s => s.commits)).flatten).Perm
      commits) ∧
    (categorizeCommits commits).all (fun s => !s.commits.isEmpty) = true := by
  constructor
  · have h1 : ((categorizeCommits commits).map (fun s => s.commits)) =
        (categorizeGroups commits).map (fun g => sortCommitsByDate g.2) := by
      simp [categorizeCommits, List.map_map]
    have h2 : ∀ gs : List (String × List Commit),
        ((gs.map (fun g => sortCommitsByDate g.2)).flatten).Perm
          ((gs.map Prod.snd).flatten) := by
      intro gs
      induction gs with
      | nil => exact List.Perm.refl _
      | cons g t ih =>
        simp only [List.map_cons, List.flatten_cons]
        exact List.Perm.append (sortCommitsByDate_perm g.2) ih
    have h3 := flatten_fold_perm commits []
    rw [h1]
    exact (h2 (categorizeGroups commits)).trans (by simpa using h3)
  · rw [List.all_eq_true]
    intro s hs
    obtain ⟨g, hg, rfl⟩ := List.mem_map.mp hs
    have hne : g.2 ≠ [] := groups_nonempty commits g hg
    show (!(sortCommitsByDate g.2).isEmpty) = true
    cases hsort : sortCommitsByDate g.2 with
    | nil =>
      exfalso
      have hperm := sortCommitsByDate_perm g.2
      rw [hsort] at hperm
      exact hne hperm.symm.eq_nil
    | cons x xs => rfl

end Bumper
